import Mathlib

/-!
Verification of the span-corruption dataset core of
megatron/data/non_causal_mlm_dataset.py: the document packer
(get_samples_mapping / breakdown), the length planner
(compute_input_and_target_lengths), the noise-mask generator
(random_spans_noise_mask), the sentinel encoder (create_sentinel_ids)
and the sequence assembler (filter_input_ids / build_training_sample).

Machine integers of the source (numpy int8 / int32 / int64 and Python int)
are embedded as Nat / Int; none of the quantities involved can overflow
their source widths on the inputs considered. Python floats for the noise
density and the mean span length are embedded as rationals, with the
round-half-to-even semantics of numpy round. Exceptions raised by the
source (TypeError, IndexError, ValueError from shape mismatches) are
embedded as Option results, with none meaning the call raises.
-/

attribute [local semireducible] Rat.mul Rat.inv Rat.add Rat.sub

namespace NCMLM

/-- Round half to even on rationals, the semantics of numpy round and of the
Python builtin round applied to the float expressions of the source. -/
def roundHalfEven (q : ℚ) : ℤ :=
  let f := Rat.floor q
  let r := q - f
  if r < 1/2 then f else if 1/2 < r then f + 1 else if f % 2 = 0 then f else f + 1

/-- Inclusive prefix sums over natural numbers, the semantics of np.cumsum. -/
def cumsumN : List ℕ → List ℕ
  | [] => []
  | a :: l => a :: (cumsumN l).map (a + ·)

/-- Inclusive prefix sums over integers, the semantics of np.cumsum. -/
def cumsumZ : List ℤ → List ℤ
  | [] => []
  | a :: l => a :: (cumsumZ l).map (a + ·)

/-- Booleans cast to integers, the semantics of astype(np.int8) on a boolean
array with values 0 and 1. -/
def boolToInt (b : Bool) : ℤ := if b then 1 else 0

section Packer

/-- Breakdown helper defined inside get_samples_mapping. It receives the
remaining length of the current document and the window length max_len
(an Option, since the recursive call of the source omits the max_len
argument, so the callee receives None there). If sample_len < max_len it
returns the single pair list built from [0] + idx_list + [idx_offset +
sample_len]. Otherwise the source recurses with max_len = None; comparing an
int with None raises TypeError in the callee, which we model as none. -/
def breakdown (sample_len idx_offset : ℕ) (idx_list : List ℕ) (max_len : Option ℕ) :
    Option (List (ℕ × ℕ)) :=
  match max_len with
  | none => none
  | some w =>
    if sample_len < w then
      let l := 0 :: (idx_list ++ [idx_offset + sample_len])
      some (l.dropLast.zip l.tail)
    else
      none

/-- State of the packing loop of get_samples_mapping: the emitted samples,
the open accumulator sample_indices and its length current_len. -/
structure PackState where
  samples_mapping : List (List (ℤ × ℕ × ℕ))
  sample_indices : List (ℤ × ℕ × ℕ)
  current_len : ℕ

/-- One iteration of the document loop of get_samples_mapping, for the
document doc = (doc_idx, sample_len). Returns none when breakdown raises. -/
def packDoc (max_len : ℕ) (st : PackState) (doc : ℤ × ℕ) : Option PackState :=
  let doc_idx := doc.1
  let first :=
    if st.current_len + doc.2 > max_len then
      let end_idx := max_len - st.current_len
      (PackState.mk (st.samples_mapping ++ [st.sample_indices ++ [(doc_idx, 0, end_idx)]]) [] 0,
        doc.2 - end_idx, end_idx)
    else
      (st, doc.2, 0)
  match breakdown first.2.1 0 [] (some max_len) with
  | none => none
  | some indices =>
    some (indices.foldl (fun acc p =>
      let len := p.2 - p.1
      if len = max_len then
        PackState.mk (acc.samples_mapping ++ [[(doc_idx, p.1 + first.2.2, p.2 + first.2.2)]])
          acc.sample_indices acc.current_len
      else
        PackState.mk acc.samples_mapping
          (acc.sample_indices ++ [(doc_idx, p.1 + first.2.2, p.2 + first.2.2)])
          (acc.current_len + len)) first.1)

/-- The document loop of get_samples_mapping. -/
def packLoop (max_len : ℕ) (st : PackState) : List (ℤ × ℕ) → Option PackState
  | [] => some st
  | d :: ds =>
    match packDoc max_len st d with
    | none => none
    | some st2 => packLoop max_len st2 ds

/-- Build of the samples mapping performed by rank 0 in get_samples_mapping,
as a pure function of the corpus (a list of pairs of document id and
document length, the zip of doc_idx with sizes) and of the window length
max_len. File caching and the cross-process barrier are outside the model.
The trailing accumulator sample_indices is not appended to samples_mapping
by the source, and likewise disappears here. -/
def get_samples_mapping (docs : List (ℤ × ℕ)) (max_len : ℕ) :
    Option (List (List (ℤ × ℕ × ℕ))) :=
  match packLoop max_len (PackState.mk [] [] 0) docs with
  | none => none
  | some st => some st.samples_mapping

/-- Total length contributed by the spans of one sample. -/
def sampleSpanSum (s : List (ℤ × ℕ × ℕ)) : ℕ :=
  (s.map (fun sp => sp.2.2 - sp.2.1)).sum

theorem breakdown_eval (s w : ℕ) :
    breakdown s 0 [] (some w) = if s < w then some [(0, s)] else none := by
  by_cases h : s < w <;> simp [breakdown, h]

/-- Packing invariant: all emitted samples have span lengths summing to
max_len, the accumulator sums to current_len, and current_len ≤ max_len. -/
def PackInv (max_len : ℕ) (st : PackState) : Prop :=
  (∀ s ∈ st.samples_mapping, sampleSpanSum s = max_len) ∧
    sampleSpanSum st.sample_indices = st.current_len ∧ st.current_len ≤ max_len

theorem packDoc_inv {max_len : ℕ} {st st2 : PackState} {d : ℤ × ℕ}
    (hinv : PackInv max_len st) (h : packDoc max_len st d = some st2) :
    PackInv max_len st2 := by
  obtain ⟨hall, hacc, hle⟩ := hinv
  unfold packDoc at h
  by_cases hov : st.current_len + d.2 > max_len
  · simp only [hov, if_true, reduceIte, breakdown_eval] at h
    by_cases hlt : d.2 - (max_len - st.current_len) < max_len
    · simp only [hlt, if_true, reduceIte, List.foldl_cons, List.foldl_nil] at h
      by_cases hfull : d.2 - (max_len - st.current_len) - 0 = max_len
      · omega
      · simp only [hfull, reduceIte] at h
        injection h with h
        subst h
        refine ⟨?_, ?_, by dsimp only; omega⟩
        · intro s hs
          simp only [List.mem_append, List.mem_singleton] at hs
          rcases hs with hs | hs
          · exact hall s hs
          · subst hs
            simp only [sampleSpanSum, List.map_append, List.sum_append] at hacc ⊢
            simp
            omega
        · simp [sampleSpanSum]
    · simp only [hlt, reduceIte] at h
      exact absurd h (by simp)
  · simp only [hov, reduceIte, breakdown_eval] at h
    by_cases hlt : d.2 < max_len
    · simp only [hlt, if_true, reduceIte, List.foldl_cons, List.foldl_nil] at h
      by_cases hfull : d.2 - 0 = max_len
      · omega
      · simp only [hfull, reduceIte] at h
        injection h with h
        subst h
        refine ⟨hall, ?_, by dsimp only; omega⟩
        simp only [sampleSpanSum, List.map_append, List.sum_append] at hacc ⊢
        simp
        omega
    · simp only [hlt, reduceIte] at h
      exact absurd h (by simp)

theorem packLoop_inv {max_len : ℕ} :
    ∀ (docs : List (ℤ × ℕ)) (st st2 : PackState),
      PackInv max_len st → packLoop max_len st docs = some st2 → PackInv max_len st2 := by
  intro docs
  induction docs with
  | nil =>
    intro st st2 hinv h
    simp only [packLoop] at h
    injection h with h
    exact h ▸ hinv
  | cons d ds ih =>
    intro st st2 hinv h
    simp only [packLoop] at h
    cases hd : packDoc max_len st d with
    | none => rw [hd] at h; exact absurd h (by simp)
    | some st1 =>
      rw [hd] at h
      exact ih st1 st2 (packDoc_inv hinv hd) h

/-- C4: every sample emitted into the built samples mapping has spans whose
lengths sum to exactly the window length max_len; the accumulator still open
after the last document is processed is never emitted, so no short sample
appears in the index. -/
theorem C4_emitted_samples_sum_to_window (docs : List (ℤ × ℕ)) (max_len : ℕ)
    (mapping : List (List (ℤ × ℕ × ℕ)))
    (hres : get_samples_mapping docs max_len = some mapping) :
    ∀ s ∈ mapping, sampleSpanSum s = max_len := by
  unfold get_samples_mapping at hres
  cases hloop : packLoop max_len (PackState.mk [] [] 0) docs with
  | none => rw [hloop] at hres; exact absurd hres (by simp)
  | some st =>
    rw [hloop] at hres
    injection hres with hres
    have hinv : PackInv max_len (PackState.mk [] [] 0) := by
      refine ⟨by simp, by simp [sampleSpanSum], by dsimp only; omega⟩
    have := packLoop_inv docs _ st hinv hloop
    exact hres ▸ this.1

/-- Witness for C4: the corpus with document lengths 5, 5, 2 and window 4
builds successfully and its two emitted samples each sum to 4. -/
theorem C4_witness :
    sampleSpanSum [((0:ℤ), (0:ℕ), (4:ℕ))] = 4 ∧
      sampleSpanSum [((0:ℤ), (4:ℕ), (5:ℕ)), ((1:ℤ), (0:ℕ), (3:ℕ))] = 4 :=
  ⟨C4_emitted_samples_sum_to_window [(0, 5), (1, 5), (2, 2)] 4
      [[(0, 0, 4)], [(0, 4, 5), (1, 0, 3)]] (by decide) _ (by decide),
    C4_emitted_samples_sum_to_window [(0, 5), (1, 5), (2, 2)] 4
      [[(0, 0, 4)], [(0, 4, 5), (1, 0, 3)]] (by decide) _ (by decide)⟩

/-- C2 counterexample: on the corpus with document lengths 5, 5, 2 and window
4 the build does not produce the three samples claimed; the third group of
spans stays in the never-emitted accumulator. -/
theorem C2_counterexample :
    get_samples_mapping [((0:ℤ), 5), (1, 5), (2, 2)] 4 ≠
      some [[((0:ℤ), (0:ℕ), (4:ℕ))], [(0, 4, 5), (1, 0, 3)], [(1, 3, 5), (2, 0, 2)]] := by
  decide

/-- C2 amended: on the corpus with document lengths 5, 5, 2 and window 4 the
build produces exactly the two samples [(0,0,4)] and [(0,4,5),(1,0,3)]; the
spans (1,3,5),(2,0,2) remain in the trailing accumulator, which is dropped
even though its length is exactly the window length 4. -/
theorem C2_amended_actual_samples :
    get_samples_mapping [((0:ℤ), 5), (1, 5), (2, 2)] 4 =
      some [[((0:ℤ), (0:ℕ), (4:ℕ))], [(0, 4, 5), (1, 0, 3)]] := by
  decide

/-- C3: a document whose remainder after filling the open accumulator is at
least the window length makes the build raise TypeError: the recursive call
inside breakdown omits the max_len argument, so the source compares an int
against None. Here a single document of length 9 with window 4 leaves a
remainder 5 ≥ 4 and the build returns none instead of emitting the
standalone window-length chunk the claim describes. -/
theorem C3_breakdown_raises_on_full_chunk :
    get_samples_mapping [((0:ℤ), 9)] 4 = none := by
  decide

end Packer

section Planner

/-- Helper _tokens_length_to_inputs_length_targets_length defined inside
compute_input_and_target_lengths: simulated input and target lengths for a
raw token length, with the trailing end-of-sequence token counted in each. -/
def tokensLengthToLengths (noise_density mean_noise_span_length : ℚ) (tokens_length : ℤ) :
    ℤ × ℤ :=
  let num_noise_tokens := roundHalfEven (tokens_length * noise_density)
  let num_nonnoise_tokens := tokens_length - num_noise_tokens
  let num_noise_spans := roundHalfEven ((num_noise_tokens : ℚ) / mean_noise_span_length)
  (num_nonnoise_tokens + num_noise_spans + 1, num_noise_tokens + num_noise_spans + 1)

/-- While loop of compute_input_and_target_lengths: starting from the
desired inputs_length, increment tokens_length while the simulated input
length of tokens_length + 1 still fits. The loop of the source can run
forever for degenerate parameters, so it is embedded with fuel; none means
the fuel ran out before the loop finished. -/
def plannerLoop (inputs_length : ℤ) (noise_density mean_noise_span_length : ℚ) :
    ℕ → ℤ → Option ℤ
  | 0, _ => none
  | fuel + 1, tokens_length =>
    if (tokensLengthToLengths noise_density mean_noise_span_length (tokens_length + 1)).1 ≤
        inputs_length then
      plannerLoop inputs_length noise_density mean_noise_span_length fuel (tokens_length + 1)
    else
      some tokens_length

/-- Model of compute_input_and_target_lengths. Returns the raw token length
and the target length; when noise_density equals one half and the recomputed
target length exceeds the recomputed input length, both the raw length and
the target length are decremented by one. -/
def compute_input_and_target_lengths (inputs_length : ℤ)
    (noise_density mean_noise_span_length : ℚ) (fuel : ℕ) : Option (ℤ × ℤ) :=
  match plannerLoop inputs_length noise_density mean_noise_span_length fuel inputs_length with
  | none => none
  | some tokens_length =>
    let p := tokensLengthToLengths noise_density mean_noise_span_length tokens_length
    if noise_density = 1/2 ∧ p.2 > p.1 then
      some (tokens_length - 1, p.2 - 1)
    else
      some (tokens_length, p.2)

theorem plannerLoop_spec {W : ℤ} {d m : ℚ} :
    ∀ (fuel : ℕ) (T0 T : ℤ), plannerLoop W d m fuel T0 = some T →
      T0 ≤ T ∧ W < (tokensLengthToLengths d m (T + 1)).1 ∧
        ((tokensLengthToLengths d m T0).1 ≤ W → (tokensLengthToLengths d m T).1 ≤ W) := by
  intro fuel
  induction fuel with
  | zero => intro T0 T h; exact absurd h (by simp [plannerLoop])
  | succ n ih =>
    intro T0 T h
    unfold plannerLoop at h
    by_cases hc : (tokensLengthToLengths d m (T0 + 1)).1 ≤ W
    · simp only [hc, reduceIte] at h
      obtain ⟨h1, h2, h3⟩ := ih (T0 + 1) T h
      exact ⟨by omega, h2, fun _ => h3 hc⟩
    · simp only [hc, reduceIte] at h
      injection h with h
      subst h
      exact ⟨le_refl _, by omega, fun hW => hW⟩

/-- C5 counterexample: for desired length 1, density 0.15 and mean span 3
the planner returns raw length 1 whose simulated input length is 2 > 1, so
the claimed inequality input_len(T) ≤ W fails. -/
theorem C5_counterexample :
    compute_input_and_target_lengths 1 (3/20) 3 50 = some (1, 1) ∧
      (tokensLengthToLengths (3/20) 3 1).1 = 2 ∧ ¬((2 : ℤ) ≤ 1) := by
  refine ⟨by decide, by decide, by decide⟩

/-- C5 amended: for every desired length W ≥ 1, density d in (0,1) with
d ≠ 0.5 and mean span m ≥ 1, if the planner returns (T, target) then T ≥ W,
the simulated input length of T + 1 exceeds W, and whenever the simulated
input length of W itself fits in W so does the one of T. (The claim as
stated also asserted input_len(T) ≤ W unconditionally, which fails when no
candidate fits, for example W = 1, d = 0.15, m = 3.) -/
theorem C5_amended_planner_maximality (W T tl : ℤ) (d m : ℚ) (fuel : ℕ)
    (hW : 1 ≤ W) (hd0 : 0 < d) (hd1 : d < 1) (hm : 1 ≤ m) (hdh : d ≠ 1/2)
    (hres : compute_input_and_target_lengths W d m fuel = some (T, tl)) :
    W ≤ T ∧ W < (tokensLengthToLengths d m (T + 1)).1 ∧
      ((tokensLengthToLengths d m W).1 ≤ W → (tokensLengthToLengths d m T).1 ≤ W) := by
  unfold compute_input_and_target_lengths at hres
  cases hloop : plannerLoop W d m fuel W with
  | none => rw [hloop] at hres; exact absurd hres (by simp)
  | some T1 =>
    rw [hloop] at hres
    have hcond : ¬(d = 1/2 ∧
        (tokensLengthToLengths d m T1).2 > (tokensLengthToLengths d m T1).1) := by
      intro hc
      exact hdh hc.1
    dsimp only at hres
    rw [if_neg hcond] at hres
    injection hres with hres
    have hT : T1 = T := congrArg Prod.fst hres
    subst hT
    exact plannerLoop_spec fuel W T1 hloop

/-- Witness for C5 amended: at W = 8, d = 0.15, m = 3 the planner stops at
T = 8 with input length 8 ≤ 8 and input length 9 > 8 at T + 1. -/
theorem C5_witness :
    (8 : ℤ) ≤ 8 ∧ (8 : ℤ) < (tokensLengthToLengths (3/20) 3 9).1 ∧
      ((tokensLengthToLengths (3/20) 3 8).1 ≤ 8 → (tokensLengthToLengths (3/20) 3 8).1 ≤ 8) :=
  C5_amended_planner_maximality 8 8 2 (3/20) 3 20 (by decide) (by decide) (by decide)
    (by decide) (by decide) (by decide)

/-- C9 counterexample: at W = 11, d = 0.5, m = 3 the loop chooses T = 15
where the target length 12 exceeds the input length 11, the planner returns
(14, 11), and 11 differs from the input length 10 simulated at the returned
raw length 14 — so the returned target does not equal the input length for
the returned T as claimed. -/
theorem C9_counterexample :
    plannerLoop 11 (1/2) 3 30 11 = some 15 ∧
      (tokensLengthToLengths (1/2) 3 15).2 > (tokensLengthToLengths (1/2) 3 15).1 ∧
      compute_input_and_target_lengths 11 (1/2) 3 30 = some (14, 11) ∧
      (tokensLengthToLengths (1/2) 3 14).1 = 10 ∧ ¬((11 : ℤ) = 10) := by
  refine ⟨by decide, by decide, by decide, by decide, by decide⟩

/-- C9 amended: when the density equals 0.5 and the target length exceeds
the input length at the loop-chosen raw length T, the planner returns T - 1
together with the target length of T decremented by one; the input length is
neither recomputed nor returned, and the returned target length equals the
input length simulated at the original T (one below the original target
length), not at the returned T - 1. -/
theorem C9_amended_half_density_hack (W T : ℤ) (m : ℚ) (fuel : ℕ)
    (hloop : plannerLoop W (1/2) m fuel W = some T)
    (hgt : (tokensLengthToLengths (1/2) m T).2 > (tokensLengthToLengths (1/2) m T).1) :
    compute_input_and_target_lengths W (1/2) m fuel =
        some (T - 1, (tokensLengthToLengths (1/2) m T).2 - 1) ∧
      (tokensLengthToLengths (1/2) m T).2 - 1 = (tokensLengthToLengths (1/2) m T).1 := by
  constructor
  · unfold compute_input_and_target_lengths
    rw [hloop]
    exact if_pos ⟨rfl, hgt⟩
  · have hfl : Rat.floor ((T : ℚ) * (1/2)) = ⌊(T : ℚ) * (1/2)⌋ := by
      rw [Rat.floor_def, Rat.floor_def']
    have hub : ((roundHalfEven ((T : ℚ) * (1/2)) : ℚ)) ≤ (T : ℚ) * (1/2) + 1/2 := by
      unfold roundHalfEven
      rw [hfl]
      set q : ℚ := (T : ℚ) * (1/2) with hq
      have h1 : (⌊q⌋ : ℚ) ≤ q := Int.floor_le q
      have h2 : q < ⌊q⌋ + 1 := Int.lt_floor_add_one q
      by_cases hlt : q - ⌊q⌋ < 1/2
      · simp only [hlt, reduceIte]
        linarith
      · simp only [hlt, reduceIte]
        by_cases hgt2 : 1/2 < q - ⌊q⌋
        · simp only [hgt2, reduceIte]
          push_cast
          linarith
        · simp only [hgt2, reduceIte]
          by_cases hev : ⌊q⌋ % 2 = 0 <;> simp only [hev, reduceIte] <;> push_cast <;> linarith
    unfold tokensLengthToLengths at hgt ⊢
    set nt : ℤ := roundHalfEven ((T : ℚ) * (1/2)) with hnt
    simp only at hgt ⊢
    have h2nt : 2 * nt ≤ T + 1 := by
      have : ((2 * nt : ℤ) : ℚ) ≤ ((T + 1 : ℤ) : ℚ) := by
        push_cast
        nlinarith [hub]
      exact_mod_cast this
    omega

/-- Witness for C9 amended: the concrete run W = 11, d = 0.5, m = 3 returns
(14, 11) and 11 equals the input length simulated at the original T = 15. -/
theorem C9_witness :
    (compute_input_and_target_lengths 11 (1/2) 3 30 =
        some (15 - 1, (tokensLengthToLengths (1/2) 3 15).2 - 1)) ∧
      (tokensLengthToLengths (1/2) 3 15).2 - 1 = (tokensLengthToLengths (1/2) 3 15).1 :=
  C9_amended_half_density_hack 11 15 3 30 (by decide) (by decide)

end Planner

section Sentinel

/-- Right rotation by one, the semantics of np.roll with shift 1 on one
axis: the last element moves to the front. -/
def npRoll1 (l : List ℤ) : List ℤ :=
  match l.getLast? with
  | none => []
  | some x => x :: l.dropLast

/-- Model of create_sentinel_ids on a single row. The start positions of
mask spans are found by subtracting the rolled mask, with position zero
patched; their running count is kept at start positions; starts are mapped
to vocab_len minus rank; finally mask minus start is subtracted, which
writes -1 on masked non-start positions. -/
def create_sentinel_ids (mask_indices : List ℤ) (vocab_len : ℤ) : List ℤ :=
  let rolled := npRoll1 mask_indices
  let start0 := List.zipWith (fun m r => m - r * m) mask_indices rolled
  let start_indices := start0.set 0 (mask_indices.headD 0)
  let sentinel1 :=
    List.zipWith (fun s c => if s ≠ 0 then c else s) start_indices (cumsumZ start_indices)
  let sentinel2 := sentinel1.map (fun s => if s ≠ 0 then vocab_len - s else 0)
  List.zipWith (fun s p => s - (p.1 - p.2)) sentinel2 (mask_indices.zip start_indices)

/-- Model of filter_input_ids on a single row: substitute nonzero sentinel
values, drop strictly negative entries, append the end token. -/
def filter_input_ids (input_ids sentinel_ids : List ℤ) (eos_id : ℤ) : List ℤ :=
  let input_ids_full := List.zipWith (fun s t => if s ≠ 0 then s else t) sentinel_ids input_ids
  (input_ids_full.filter (fun x => decide (0 ≤ x))) ++ [eos_id]

/-- Count of maximal runs of true in the suffix of a boolean mask, given the
value of the position just before the suffix. -/
def runsAux : Bool → List Bool → ℕ
  | _, [] => 0
  | false, true :: r => 1 + runsAux true r
  | true, true :: r => runsAux true r
  | _, false :: r => runsAux false r

/-- Number of maximal contiguous runs of true in a boolean mask. -/
def countTrueRuns (l : List Bool) : ℕ := runsAux false l

/-- Start indicator of the suffix of a mask given the previous mask bit:
value 1 exactly at positions opening a new run of true. -/
def startsFromB : Bool → List Bool → List ℤ
  | _, [] => []
  | false, true :: r => 1 :: startsFromB true r
  | true, true :: r => 0 :: startsFromB true r
  | _, false :: r => 0 :: startsFromB false r

/-- Recursive characterization of the sentinel map of create_sentinel_ids:
prev is the previous mask bit and K the number of runs already opened.
Unmasked positions map to 0, positions opening a run to vocab_len minus the
new run count, masked continuation positions to -1. -/
def sentSpecB (V : ℤ) : Bool → ℤ → List Bool → List ℤ
  | _, _, [] => []
  | false, K, true :: r => (V - (K + 1)) :: sentSpecB V true (K + 1) r
  | true, K, true :: r => -1 :: sentSpecB V true K r
  | _, K, false :: r => 0 :: sentSpecB V false K r

/-- Tail of the sentinel pipeline of create_sentinel_ids, generalized over
the start list st, the mask row m and the number K of starts already
consumed by the cumulative sum. -/
def sentTail (V K : ℤ) (st m : List ℤ) : List ℤ :=
  List.zipWith (fun s p => s - (p.1 - p.2))
    ((List.zipWith (fun s c => if s ≠ 0 then c else s) st ((cumsumZ st).map (K + ·))).map
      (fun s => if s ≠ 0 then V - s else 0))
    (m.zip st)

theorem dropLast_cons_of_ne_nil {α : Type} (a : α) {l : List α} (h : l ≠ []) :
    (a :: l).dropLast = a :: l.dropLast := by
  cases l with
  | nil => exact absurd rfl h
  | cons b t => rfl

theorem zipWith_start_eq (r : List Bool) :
    ∀ p : Bool,
      List.zipWith (fun m x => m - x * m) (r.map boolToInt)
          (boolToInt p :: (r.map boolToInt).dropLast) = startsFromB p r := by
  induction r with
  | nil => intro p; simp [startsFromB]
  | cons c r2 ih =>
    intro p
    by_cases hr2 : r2 = []
    · subst hr2
      cases c <;> cases p <;> simp [boolToInt, startsFromB]
    · have hne : (r2.map boolToInt) ≠ [] := by simpa using hr2
      calc List.zipWith (fun m x => m - x * m) ((c :: r2).map boolToInt)
            (boolToInt p :: ((c :: r2).map boolToInt).dropLast)
          = (boolToInt c - boolToInt p * boolToInt c) ::
              List.zipWith (fun m x => m - x * m) (r2.map boolToInt)
                (boolToInt c :: (r2.map boolToInt).dropLast) := by
            simp only [List.map_cons, dropLast_cons_of_ne_nil _ hne, List.zipWith_cons_cons]
        _ = startsFromB p (c :: r2) := by
            rw [ih c]
            cases c <;> cases p <;> simp [boolToInt, startsFromB]

theorem start_indices_eq (l : List Bool) :
    ((List.zipWith (fun m x => m - x * m) (l.map boolToInt)
        (npRoll1 (l.map boolToInt))).set 0 ((l.map boolToInt).headD 0)) =
      startsFromB false l := by
  cases l with
  | nil => simp [npRoll1, startsFromB]
  | cons b r =>
    simp only [List.map_cons]
    have hlast : ∃ x, (boolToInt b :: r.map boolToInt).getLast? = some x := by
      cases h : (boolToInt b :: r.map boolToInt).getLast? with
      | none => simp [List.getLast?_eq_none_iff] at h
      | some x => exact ⟨x, rfl⟩
    obtain ⟨x, hx⟩ := hlast
    rw [show npRoll1 (boolToInt b :: r.map boolToInt) =
        x :: (boolToInt b :: r.map boolToInt).dropLast by simp [npRoll1, hx]]
    by_cases hr : r = []
    · subst hr
      cases b <;> simp [boolToInt, startsFromB]
    · have hne2 : (r.map boolToInt) ≠ [] := by simpa using hr
      rw [dropLast_cons_of_ne_nil _ hne2, List.zipWith_cons_cons]
      rw [List.set_cons_zero, List.headD_cons]
      rw [zipWith_start_eq r b]
      cases b <;> simp [boolToInt, startsFromB]

theorem sentTail_cons (V K s0 m0 : ℤ) (st m : List ℤ) :
    sentTail V K (s0 :: st) (m0 :: m) =
      ((if (if s0 ≠ 0 then K + s0 else s0) ≠ 0
          then V - (if s0 ≠ 0 then K + s0 else s0) else 0) - (m0 - s0)) ::
        sentTail V (K + s0) st m := by
  unfold sentTail
  simp only [cumsumZ, List.map_cons, List.map_map, List.zipWith_cons_cons, List.zip_cons_cons]
  have hcomp : ((fun x => K + x) ∘ fun x => s0 + x) = (fun x => K + s0 + x) := by
    funext c
    simp only [Function.comp_apply]
    ring
  rw [hcomp]

theorem sentTail_spec (V : ℤ) :
    ∀ (l : List Bool) (prev : Bool) (K : ℤ), 0 ≤ K →
      sentTail V K (startsFromB prev l) (l.map boolToInt) = sentSpecB V prev K l := by
  intro l
  induction l with
  | nil => intro prev K _; cases prev <;> rfl
  | cons b r ih =>
    intro prev K hK
    cases b <;> cases prev
    · show sentTail V K ((0:ℤ) :: startsFromB false r) ((0:ℤ) :: r.map boolToInt) = _
      rw [sentTail_cons]
      simp only [startsFromB, sentSpecB, add_zero]
      rw [ih false K hK]
      norm_num
    · show sentTail V K ((0:ℤ) :: startsFromB false r) ((0:ℤ) :: r.map boolToInt) = _
      rw [sentTail_cons]
      simp only [startsFromB, sentSpecB, add_zero]
      rw [ih false K hK]
      norm_num
    · show sentTail V K ((1:ℤ) :: startsFromB true r) ((1:ℤ) :: r.map boolToInt) = _
      rw [sentTail_cons]
      have h1 : K + 1 ≠ 0 := by omega
      simp only [startsFromB, sentSpecB]
      rw [ih true (K + 1) (by omega)]
      simp [h1]
    · show sentTail V K ((0:ℤ) :: startsFromB true r) ((1:ℤ) :: r.map boolToInt) = _
      rw [sentTail_cons]
      simp only [startsFromB, sentSpecB, add_zero]
      rw [ih true K hK]
      norm_num

theorem create_sentinel_ids_eq (l : List Bool) (V : ℤ) :
    create_sentinel_ids (l.map boolToInt) V = sentSpecB V false 0 l := by
  unfold create_sentinel_ids
  dsimp only
  rw [start_indices_eq l]
  have hmap : (cumsumZ (startsFromB false l)).map ((0:ℤ) + ·) = cumsumZ (startsFromB false l) := by
    have : ((0:ℤ) + ·) = (id : ℤ → ℤ) := funext fun c => zero_add c
    rw [this, List.map_id]
  rw [← sentTail_spec V l false 0 (le_refl 0)]
  unfold sentTail
  rw [hmap]

theorem getD_cons_ite (a : Bool) (l : List Bool) (j : ℕ) :
    (a :: l).getD j false = if j = 0 then a else l.getD (j - 1) false := by
  cases j with
  | zero => simp
  | succ j2 => simp

theorem runsAux_le_count : ∀ (l : List Bool) (prev : Bool), runsAux prev l ≤ l.count true := by
  intro l
  induction l with
  | nil => intro prev; cases prev <;> simp [runsAux]
  | cons b r ih =>
    intro prev
    have h1 := ih true
    have h2 := ih false
    cases b <;> cases prev <;> simp [runsAux, List.count_cons] <;> omega

theorem count_map_not (l : List Bool) : (l.map not).count true = l.length - l.count true := by
  induction l with
  | nil => simp
  | cons b r ih =>
    have := List.count_le_length true r
    cases b <;> simp [List.count_cons, ih] <;> omega

theorem sentSpecB_getD (V : ℤ) :
    ∀ (l : List Bool) (prev : Bool) (K : ℤ) (i : ℕ), i < l.length →
      (sentSpecB V prev K l).getD i 0 =
        if l.getD i false = false then 0
        else if (if i = 0 then prev else l.getD (i - 1) false) = true then -1
        else V - (K + (runsAux prev (l.take (i + 1)) : ℤ)) := by
  intro l
  induction l with
  | nil => intro prev K i hi; simp at hi
  | cons b r ih =>
    intro prev K i hi
    cases i with
    | zero =>
      cases b <;> cases prev <;>
        simp [sentSpecB, runsAux, List.take_succ_cons]
    | succ j =>
      have hj : j < r.length := by simpa using hi
      have hne : ¬(j + 1 = 0) := Nat.succ_ne_zero j
      cases b
      · have h1 : sentSpecB V prev K (false :: r) = 0 :: sentSpecB V false K r := by
          cases prev <;> rfl
        have h2 : runsAux prev ((false : Bool) :: r.take (j + 1)) =
            runsAux false (r.take (j + 1)) := by
          cases prev <;> rfl
        rw [h1, List.getD_cons_succ, ih false K j hj,
          List.getD_cons_succ, if_neg hne, Nat.add_sub_cancel, List.take_succ_cons, h2,
          getD_cons_ite]
      · cases prev
        · rw [show sentSpecB V false K (true :: r) = (V - (K + 1)) :: sentSpecB V true (K + 1) r
              from rfl]
          rw [List.getD_cons_succ, ih true (K + 1) j hj,
            List.getD_cons_succ, if_neg hne, Nat.add_sub_cancel, List.take_succ_cons,
            getD_cons_ite]
          have hr : (runsAux false ((true : Bool) :: r.take (j + 1)) : ℤ) =
              1 + (runsAux true (r.take (j + 1)) : ℤ) := by
            rw [show runsAux false ((true : Bool) :: r.take (j + 1)) =
                1 + runsAux true (r.take (j + 1)) from rfl]
            push_cast
            ring
          rw [hr]
          ring_nf
        · rw [show sentSpecB V true K (true :: r) = -1 :: sentSpecB V true K r from rfl]
          rw [List.getD_cons_succ, ih true K j hj,
            List.getD_cons_succ, if_neg hne, Nat.add_sub_cancel, List.take_succ_cons,
            getD_cons_ite]
          rw [show runsAux true ((true : Bool) :: r.take (j + 1)) =
              runsAux true (r.take (j + 1)) from rfl]

theorem keep_count (V : ℤ) :
    ∀ (l : List Bool) (tokens : List ℤ) (prev : Bool) (K : ℤ),
      tokens.length = l.length → (∀ t ∈ tokens, 0 ≤ t) → 0 ≤ K →
      K + (runsAux prev l : ℤ) ≤ V →
      ((List.zipWith (fun s t => if s ≠ 0 then s else t) (sentSpecB V prev K l) tokens).filter
          (fun x => decide (0 ≤ x))).length = (l.length - l.count true) + runsAux prev l := by
  intro l
  induction l with
  | nil =>
    intro tokens prev K hlen _ _ _
    rw [List.length_eq_zero.mp hlen]
    cases prev <;> simp [sentSpecB, runsAux]
  | cons b r ih =>
    intro tokens prev K hlen htok hK hV
    cases tokens with
    | nil => simp at hlen
    | cons t ts =>
      have hlen2 : ts.length = r.length := by simpa using hlen
      have ht : 0 ≤ t := htok t (by simp)
      have hts : ∀ x ∈ ts, 0 ≤ x := fun x hx => htok x (by simp [hx])
      have hcnt := List.count_le_length true r
      cases b
      · have h1 : sentSpecB V prev K (false :: r) = 0 :: sentSpecB V false K r := by
          cases prev <;> rfl
        have h2 : runsAux prev ((false : Bool) :: r) = runsAux false r := by
          cases prev <;> rfl
        rw [h2] at hV
        rw [h1, h2]
        rw [List.zipWith_cons_cons, List.filter_cons]
        have hval : (if (0 : ℤ) ≠ 0 then (0 : ℤ) else t) = t := by simp
        rw [hval, show (decide (0 ≤ t)) = true by simpa using ht]
        simp only [if_true, List.length_cons, reduceIte]
        rw [ih ts false K hlen2 hts hK hV]
        rw [List.count_cons_of_ne (by decide : (true : Bool) ≠ false)]
        omega
      · cases prev
        · have h2 : (runsAux false ((true : Bool) :: r) : ℤ) = 1 + (runsAux true r : ℤ) := by
            rw [show runsAux false ((true : Bool) :: r) = 1 + runsAux true r from rfl]
            push_cast
            ring
          rw [show sentSpecB V false K (true :: r) = (V - (K + 1)) :: sentSpecB V true (K + 1) r
              from rfl]
          rw [h2] at hV
          have hrle : (0 : ℤ) ≤ (runsAux true r : ℤ) := by positivity
          rw [List.zipWith_cons_cons, List.filter_cons]
          have hval : 0 ≤ (if (V - (K + 1)) ≠ 0 then V - (K + 1) else t) := by
            by_cases hz : (V - (K + 1)) ≠ 0
            · rw [if_pos hz]
              omega
            · rw [if_neg hz]
              exact ht
          rw [show (decide (0 ≤ if (V - (K + 1)) ≠ 0 then V - (K + 1) else t)) = true by
            simpa using hval]
          simp only [if_true, List.length_cons, reduceIte]
          rw [ih ts true (K + 1) hlen2 hts (by omega) (by omega)]
          rw [show runsAux false ((true : Bool) :: r) = 1 + runsAux true r from rfl]
          rw [List.count_cons_self]
          omega
        · rw [show sentSpecB V true K (true :: r) = -1 :: sentSpecB V true K r from rfl]
          rw [show runsAux true ((true : Bool) :: r) = runsAux true r from rfl] at hV ⊢
          rw [List.zipWith_cons_cons, List.filter_cons]
          have hval : (if (-1 : ℤ) ≠ 0 then (-1 : ℤ) else t) = -1 := by norm_num
          rw [hval, show (decide ((0 : ℤ) ≤ -1)) = false by norm_num]
          simp only [Bool.false_eq_true, if_false, reduceIte]
          rw [ih ts true K hlen2 hts hK hV]
          rw [List.count_cons_self]
          simp only [List.length_cons]
          omega

/-- C6: for every noise mask over a token window, the assembled input stream
has length window length minus masked positions plus number of mask runs
plus one end token, and the target stream, assembled from the complement
mask, has length masked positions plus number of complement runs plus one.
The token ids are nonnegative and the vocabulary is at least as large as the
window, matching the assumptions stated in the source comments. -/
theorem C6_stream_lengths (mask : List Bool) (tokens : List ℤ) (V eos : ℤ)
    (hlen : tokens.length = mask.length) (htok : ∀ t ∈ tokens, 0 ≤ t)
    (hV : (mask.length : ℤ) ≤ V) :
    (filter_input_ids tokens (create_sentinel_ids (mask.map boolToInt) V) eos).length
        = (mask.length - mask.count true) + countTrueRuns mask + 1 ∧
      (filter_input_ids tokens (create_sentinel_ids ((mask.map not).map boolToInt) V) eos).length
        = mask.count true + countTrueRuns (mask.map not) + 1 := by
  have hc := List.count_le_length true mask
  constructor
  · have hb : (0 : ℤ) + (runsAux false mask : ℤ) ≤ V := by
      have h1 : runsAux false mask ≤ mask.length :=
        le_trans (runsAux_le_count mask false) (List.count_le_length true mask)
      omega
    unfold filter_input_ids
    rw [create_sentinel_ids_eq]
    rw [List.length_append]
    rw [keep_count V mask tokens false 0 hlen htok (le_refl 0) hb]
    rfl
  · have hb : (0 : ℤ) + (runsAux false (mask.map not) : ℤ) ≤ V := by
      have h1 : runsAux false (mask.map not) ≤ (mask.map not).length :=
        le_trans (runsAux_le_count (mask.map not) false)
          (List.count_le_length true (mask.map not))
      rw [List.length_map] at h1
      omega
    have hlen2 : tokens.length = (mask.map not).length := by simpa using hlen
    unfold filter_input_ids
    rw [create_sentinel_ids_eq]
    rw [List.length_append]
    rw [keep_count V (mask.map not) tokens false 0 hlen2 htok (le_refl 0) hb]
    rw [count_map_not, List.length_map]
    have : mask.length - (mask.length - mask.count true) = mask.count true := by omega
    rw [this]
    rfl

/-- Witness for C6: the mask with two leading true positions over three
tokens gives an input stream of length 3 and a target stream of length 4. -/
theorem C6_witness :
    (filter_input_ids [5, 6, 7]
        (create_sentinel_ids ([true, true, false].map boolToInt) 10) 1).length
      = (3 - [true, true, false].count true) + countTrueRuns [true, true, false] + 1 ∧
    (filter_input_ids [5, 6, 7]
        (create_sentinel_ids (([true, true, false].map not).map boolToInt) 10) 1).length
      = [true, true, false].count true + countTrueRuns ([true, true, false].map not) + 1 :=
  C6_stream_lengths [true, true, false] [5, 6, 7] 10 1 (by decide)
    (by decide) (by decide)

/-- C7: in the sentinel map of a boolean mask, every unmasked position holds
0, the k-th span start in left to right order (a masked position whose
predecessor is unmasked, or position 0 when masked) holds vocab_len - k
where k counts the runs opened up to that position, and every masked
position that is not a span start holds a strictly negative value. -/
theorem C7_sentinel_values (mask : List Bool) (V : ℤ) (i : ℕ) (hi : i < mask.length) :
    (mask.getD i false = false →
        (create_sentinel_ids (mask.map boolToInt) V).getD i 0 = 0) ∧
      (mask.getD i false = true → (i = 0 ∨ mask.getD (i - 1) false = false) →
        (create_sentinel_ids (mask.map boolToInt) V).getD i 0 =
          V - (countTrueRuns (mask.take (i + 1)) : ℤ)) ∧
      (mask.getD i false = true → ¬(i = 0 ∨ mask.getD (i - 1) false = false) →
        (create_sentinel_ids (mask.map boolToInt) V).getD i 0 < 0) := by
  rw [create_sentinel_ids_eq, sentSpecB_getD V mask false 0 i hi]
  refine ⟨?_, ?_, ?_⟩
  · intro h
    rw [h, if_pos rfl]
  · intro h hstart
    rw [h, if_neg (show ¬((true : Bool) = false) by simp)]
    have hcond : (if i = 0 then false else mask.getD (i - 1) false) = false := by
      rcases hstart with h0 | hprev
      · rw [if_pos h0]
      · by_cases h0 : i = 0
        · rw [if_pos h0]
        · rw [if_neg h0, hprev]
    rw [hcond, if_neg (show ¬((false : Bool) = true) by simp)]
    rw [show countTrueRuns (mask.take (i + 1)) = runsAux false (mask.take (i + 1)) from rfl]
    ring
  · intro h hstart
    rw [h, if_neg (show ¬((true : Bool) = false) by simp)]
    push_neg at hstart
    obtain ⟨h0, hprev⟩ := hstart
    have hcond : (if i = 0 then false else mask.getD (i - 1) false) = true := by
      rw [if_neg h0]
      cases hb : mask.getD (i - 1) false
      · exact absurd hb hprev
      · rfl
    rw [hcond, if_pos rfl]
    norm_num

/-- Witness for C7: in the mask true,true,false,true the span start at
position 3 is the second run and receives 100 - 2. -/
theorem C7_witness :
    (create_sentinel_ids ([true, true, false, true].map boolToInt) 100).getD 3 0 =
      100 - (countTrueRuns ([true, true, false, true].take 4) : ℤ) :=
  ((C7_sentinel_values [true, true, false, true] 100 3 (by decide)).2.1)
    (by decide) (Or.inr (by decide))

/-- C8: the sentinel maps of a mask and of its complement are complementary:
at every position exactly one of the two maps is nonzero, provided the
vocabulary length exceeds the window length so that no sentinel value
vocab_len - rank collapses to zero. -/
theorem C8_complementary_sentinels (mask : List Bool) (V : ℤ)
    (hV : (mask.length : ℤ) < V) (i : ℕ) (hi : i < mask.length) :
    ((create_sentinel_ids (mask.map boolToInt) V).getD i 0 = 0 ↔
      ¬((create_sentinel_ids ((mask.map not).map boolToInt) V).getD i 0 = 0)) := by
  have hi2 : i < (mask.map not).length := by simpa using hi
  have hget : (mask.map not).getD i false = !(mask.getD i false) := by
    rw [List.getD_eq_getElem?_getD, List.getD_eq_getElem?_getD, List.getElem?_map]
    rw [List.getElem?_eq_getElem hi]
    rfl
  rw [create_sentinel_ids_eq, create_sentinel_ids_eq,
    sentSpecB_getD V mask false 0 i hi, sentSpecB_getD V (mask.map not) false 0 i hi2]
  have hrb : runsAux false (mask.take (i + 1)) ≤ mask.length := by
    calc runsAux false (mask.take (i + 1)) ≤ (mask.take (i + 1)).count true :=
          runsAux_le_count _ _
      _ ≤ (mask.take (i + 1)).length := List.count_le_length _ _
      _ ≤ mask.length := by simp [List.length_take]
  have hrb2 : runsAux false ((mask.map not).take (i + 1)) ≤ mask.length := by
    calc runsAux false ((mask.map not).take (i + 1)) ≤
          ((mask.map not).take (i + 1)).count true := runsAux_le_count _ _
      _ ≤ ((mask.map not).take (i + 1)).length := List.count_le_length _ _
      _ ≤ mask.length := by simp [List.length_take, List.length_map]
  rw [hget]
  cases hmi : mask.getD i false
  · rw [if_pos rfl]
    rw [if_neg (show ¬((!(false : Bool)) = false) by simp)]
    have hnz : (if (if i = 0 then false else (mask.map not).getD (i - 1) false) = true
        then (-1 : ℤ)
        else V - (0 + (runsAux false ((mask.map not).take (i + 1)) : ℤ))) ≠ 0 := by
      by_cases hc : (if i = 0 then false else (mask.map not).getD (i - 1) false) = true
      · rw [if_pos hc]
        norm_num
      · rw [if_neg hc]
        omega
    exact ⟨fun _ => hnz, fun _ => rfl⟩
  · rw [if_neg (show ¬((true : Bool) = false) by simp)]
    rw [if_pos (show ((!(true : Bool)) = false) from rfl)]
    have hnz : (if (if i = 0 then false else mask.getD (i - 1) false) = true
        then (-1 : ℤ)
        else V - (0 + (runsAux false (mask.take (i + 1)) : ℤ))) ≠ 0 := by
      by_cases hc : (if i = 0 then false else mask.getD (i - 1) false) = true
      · rw [if_pos hc]
        norm_num
      · rw [if_neg hc]
        omega
    exact ⟨fun hy => absurd hy hnz, fun hn => absurd rfl hn⟩

/-- Witness for C8: in the mask true,false with vocabulary length 10,
position 0 carries a sentinel in the input map and 0 in the target map. -/
theorem C8_witness :
    ((create_sentinel_ids ([true, false].map boolToInt) 10).getD 0 0 = 0 ↔
      ¬((create_sentinel_ids (([true, false].map not).map boolToInt) 10).getD 0 0 = 0)) :=
  C8_complementary_sentinels [true, false] 10 (by decide) 0 (by decide)

end Sentinel

section Generator

/-- Counts of np.unique with return_counts on a list of naturals: the sorted
distinct values present, each mapped to its number of occurrences. -/
def uniqueCounts (l : List ℕ) : List ℕ :=
  ((List.range (l.foldr max 0 + 1)).filter (fun v => v ∈ l)).map (fun v => l.count v)

/-- Model of the helper random segmentation defined inside
random_spans_noise_mask. The indicator vector arange(num_items - 1) <
num_segments - 1 is built as in the source; its random shuffle is injected
as the function argument shuffle (theorems assume shuffle permutes its
input). The shuffled indicator is padded with a leading False, cumulative
summing yields segment ids, and the counts of np.unique are the segment
lengths. -/
def randomSegmentation (num_items num_segments : ℤ) (shuffle : List Bool → List Bool) :
    List ℕ :=
  let mask_indices :=
    (List.range (num_items - 1).toNat).map (fun (i : ℕ) => decide ((i : ℤ) < num_segments - 1))
  let shuffled := shuffle mask_indices
  let first_in_segment := false :: shuffled
  let segment_id := cumsumN (first_in_segment.map (fun b => if b then 1 else 0))
  uniqueCounts segment_id

/-- Clamped noise token count of random_spans_noise_mask:
round(length * noise_density) clamped into the interval from 1 to
length - 1. -/
def numNoiseTokens (length : ℕ) (noise_density : ℚ) : ℤ :=
  min (max (roundHalfEven ((length : ℚ) * noise_density)) 1) ((length : ℤ) - 1)

/-- Noise span count of random_spans_noise_mask:
round(num_noise_tokens / mean_noise_span_length), at least 1. -/
def numNoiseSpans (length : ℕ) (noise_density mean_noise_span_length : ℚ) : ℤ :=
  max (roundHalfEven ((numNoiseTokens length noise_density : ℚ) / mean_noise_span_length)) 1

/-- Semantics of np.stack with axis 1 followed by reshape to one row:
interleave two equal-length lists elementwise. The callers check the length
equality that np.stack demands. -/
def stackInterleave : List ℕ → List ℕ → List ℕ
  | a :: as, b :: bs => a :: b :: stackInterleave as bs
  | _, _ => []

/-- Model of random_spans_noise_mask. The two shuffles of the segmentation
helper are injected as functions; none models a raised exception: a
ValueError from np.stack when the two segmentations disagree in length, or
an IndexError when a span start falls outside the indicator vector. -/
def random_spans_noise_mask (length : ℕ) (noise_density mean_noise_span_length : ℚ)
    (shuffleNoise shuffleNonnoise : List Bool → List Bool) : Option (List Bool) :=
  let orig_length := length
  let num_noise_tokens := numNoiseTokens length noise_density
  let num_noise_spans := numNoiseSpans length noise_density mean_noise_span_length
  let num_nonnoise_tokens := (length : ℤ) - num_noise_tokens
  let noise_span_lengths := randomSegmentation num_noise_tokens num_noise_spans shuffleNoise
  let nonnoise_span_lengths :=
    randomSegmentation num_nonnoise_tokens num_noise_spans shuffleNonnoise
  if nonnoise_span_lengths.length = noise_span_lengths.length then
    let interleaved_span_lengths := stackInterleave nonnoise_span_lengths noise_span_lengths
    let span_starts := (cumsumN interleaved_span_lengths).dropLast
    if span_starts.all (fun s => s < length) then
      let span_start_indicator := (List.range length).map (fun j => decide (j ∈ span_starts))
      let span_num := cumsumN (span_start_indicator.map (fun b => if b then 1 else 0))
      let is_noise := span_num.map (fun k => decide (k % 2 = 1))
      some (is_noise.take orig_length)
    else none
  else none

/-- Specification-side mask: consecutive blocks of constant parity, starting
with par, with the given block lengths. -/
def blocks : Bool → List ℕ → List Bool
  | _, [] => []
  | par, n :: rest => List.replicate n par ++ blocks (!par) rest

theorem cumsumN_length (l : List ℕ) : (cumsumN l).length = l.length := by
  induction l with
  | nil => rfl
  | cons a r ih => simp [cumsumN, ih]

theorem cumsumN_cons_zero (l : List ℕ) : cumsumN (0 :: l) = 0 :: cumsumN l := by
  simp [cumsumN]

theorem mem_zero_cons_cumsum (s : List Bool) (v : ℕ) :
    v ∈ (0 :: cumsumN (s.map (fun b => if b then 1 else 0))) ↔ v ≤ s.count true := by
  induction s generalizing v with
  | nil => simp [cumsumN]
  | cons b r ih =>
    cases b
    · rw [List.map_cons]
      rw [show (if (false : Bool) then 1 else 0) = 0 from rfl, cumsumN_cons_zero]
      rw [List.count_cons_of_ne (by decide : (true : Bool) ≠ false)]
      constructor
      · intro hv
        rcases List.mem_cons.mp hv with h0 | hrest
        · omega
        · exact (ih v).mp hrest
      · intro hv
        exact List.mem_cons.mpr (Or.inr ((ih v).mpr hv))
    · rw [List.map_cons]
      rw [show (if (true : Bool) then 1 else 0) = 1 from rfl]
      rw [show cumsumN (1 :: r.map (fun b => if b then 1 else 0)) =
          1 :: (cumsumN (r.map (fun b => if b then 1 else 0))).map (1 + ·) from rfl]
      rw [List.count_cons_self]
      constructor
      · intro hv
        rcases List.mem_cons.mp hv with h0 | hv2
        · omega
        · rcases List.mem_cons.mp hv2 with h1 | hmap
          · have : 0 ≤ r.count true := Nat.zero_le _
            omega
          · obtain ⟨w, hw, hvw⟩ := List.mem_map.mp hmap
            have := (ih w).mp (List.mem_cons.mpr (Or.inr hw))
            omega
      · intro hv
        rcases Nat.eq_zero_or_pos v with h0 | hpos
        · exact List.mem_cons.mpr (Or.inl h0)
        · have hv1 : v - 1 ≤ r.count true := by omega
          have := (ih (v - 1)).mpr hv1
          rcases List.mem_cons.mp this with hz | hmem
          · refine List.mem_cons.mpr (Or.inr (List.mem_cons.mpr (Or.inl ?_)))
            omega
          · refine List.mem_cons.mpr (Or.inr (List.mem_cons.mpr (Or.inr ?_)))
            exact List.mem_map.mpr ⟨v - 1, hmem, by omega⟩

theorem le_foldr_max (l : List ℕ) (a : ℕ) (h : a ∈ l) : a ≤ l.foldr max 0 := by
  induction l with
  | nil => simp at h
  | cons x r ih =>
    rcases List.mem_cons.mp h with h0 | hr
    · subst h0
      exact le_max_left _ _
    · exact le_trans (ih hr) (le_max_right _ _)

theorem foldr_max_le (l : List ℕ) (K : ℕ) (h : ∀ a ∈ l, a ≤ K) : l.foldr max 0 ≤ K := by
  induction l with
  | nil => simp
  | cons x r ih =>
    simp only [List.foldr_cons]
    exact max_le (h x (by simp)) (ih (fun a ha => h a (by simp [ha])))

theorem sum_map_add {α : Type} (l : List α) (f g : α → ℕ) :
    (l.map (fun v => f v + g v)).sum = (l.map f).sum + (l.map g).sum := by
  induction l with
  | nil => simp
  | cons x r ih => simp [ih]; omega

theorem sum_indicator_range (n a : ℕ) :
    ((List.range n).map (fun v => if a = v then 1 else 0)).sum = if a < n then 1 else 0 := by
  induction n with
  | zero => simp
  | succ k ih =>
    rw [List.range_succ, List.map_append, List.sum_append, ih]
    simp only [List.map_cons, List.map_nil, List.sum_cons, List.sum_nil]
    by_cases h : a = k
    · subst h
      rw [if_pos rfl]
      split_ifs <;> omega
    · rw [if_neg h]
      split_ifs <;> omega

theorem sum_counts_range (l : List ℕ) (n : ℕ) (h : ∀ x ∈ l, x < n) :
    ((List.range n).map (fun v => l.count v)).sum = l.length := by
  induction l with
  | nil => simp
  | cons a r ih =>
    have hcount : ∀ v, (a :: r).count v = r.count v + if a = v then 1 else 0 := by
      intro v
      rw [List.count_cons]
      by_cases hv : a = v
      · simp [hv]
      · simp [beq_iff_eq, hv]
    calc ((List.range n).map (fun v => (a :: r).count v)).sum
        = ((List.range n).map (fun v => r.count v + if a = v then 1 else 0)).sum := by
          congr 1
          exact List.map_congr_left (fun v _ => hcount v)
      _ = ((List.range n).map (fun v => r.count v)).sum +
            ((List.range n).map (fun v => if a = v then 1 else 0)).sum :=
          sum_map_add _ _ _
      _ = r.length + 1 := by
          rw [ih (fun x hx => h x (by simp [hx])), sum_indicator_range,
            if_pos (h a (by simp))]
      _ = (a :: r).length := by simp

theorem segmentation_core (s : List Bool) :
    (uniqueCounts (cumsumN ((false :: s).map (fun b => if b then 1 else 0)))).length =
        s.count true + 1 ∧
      (uniqueCounts (cumsumN ((false :: s).map (fun b => if b then 1 else 0)))).sum =
        s.length + 1 ∧
      ∀ x ∈ uniqueCounts (cumsumN ((false :: s).map (fun b => if b then 1 else 0))), 0 < x := by
  have hids : cumsumN ((false :: s).map (fun b => if b then 1 else 0)) =
      0 :: cumsumN (s.map (fun b => if b then 1 else 0)) := by
    rw [List.map_cons, show (if (false : Bool) then 1 else 0) = 0 from rfl, cumsumN_cons_zero]
  set ids := cumsumN ((false :: s).map (fun b => if b then 1 else 0)) with hidsdef
  have hmem : ∀ v, v ∈ ids ↔ v ≤ s.count true := by
    intro v
    rw [hids]
    exact mem_zero_cons_cumsum s v
  have hmax : ids.foldr max 0 = s.count true := by
    apply le_antisymm
    · exact foldr_max_le _ _ (fun a ha => (hmem a).mp ha)
    · exact le_foldr_max _ _ ((hmem _).mpr (le_refl _))
  have hfilter : (List.range (ids.foldr max 0 + 1)).filter (fun v => v ∈ ids) =
      List.range (s.count true + 1) := by
    rw [hmax]
    apply List.filter_eq_self.mpr
    intro v hv
    have : v ≤ s.count true := by
      have := List.mem_range.mp hv
      omega
    simpa using (hmem v).mpr this
  have hlen : ids.length = s.length + 1 := by
    rw [hids]
    simp [cumsumN_length]
  refine ⟨?_, ?_, ?_⟩
  · rw [uniqueCounts, hfilter]
    simp
  · rw [uniqueCounts, hfilter]
    rw [sum_counts_range ids (s.count true + 1) (fun x hx => by
      have := (hmem x).mp hx
      omega)]
    exact hlen
  · intro x hx
    rw [uniqueCounts, hfilter] at hx
    obtain ⟨v, hv, hvx⟩ := List.mem_map.mp hx
    have hvmem : v ∈ ids := (hmem v).mpr (by
      have := List.mem_range.mp hv
      omega)
    subst hvx
    exact List.count_pos_iff.mpr hvmem

theorem cumsumN_pos :
    ∀ (segs : List ℕ), (∀ x ∈ segs, 0 < x) → ∀ y ∈ cumsumN segs, 0 < y := by
  intro segs
  induction segs with
  | nil => intro _ y hy; simp [cumsumN] at hy
  | cons a r ih =>
    intro h y hy
    rw [show cumsumN (a :: r) = a :: (cumsumN r).map (a + ·) from rfl] at hy
    rcases List.mem_cons.mp hy with h0 | hmap
    · subst h0
      exact h y (by simp)
    · obtain ⟨z, hz, hyz⟩ := List.mem_map.mp hmap
      have := h a (by simp)
      omega

theorem cumsumN_nodup :
    ∀ (segs : List ℕ), (∀ x ∈ segs, 0 < x) → (cumsumN segs).Nodup := by
  intro segs
  induction segs with
  | nil => intro _; simp [cumsumN]
  | cons a r ih =>
    intro h
    rw [show cumsumN (a :: r) = a :: (cumsumN r).map (a + ·) from rfl]
    refine List.nodup_cons.mpr ⟨?_, ?_⟩
    · intro hmem
      obtain ⟨z, hz, hza⟩ := List.mem_map.mp hmem
      have hz0 : 0 < z := cumsumN_pos r (fun x hx => h x (by simp [hx])) z hz
      omega
    · exact (ih (fun x hx => h x (by simp [hx]))).map
        (fun x y hxy => add_left_cancel hxy : Function.Injective (a + ·))

theorem cumsumN_getD (l : List ℕ) :
    ∀ (j : ℕ), j < l.length → (cumsumN l).getD j 0 = (l.take (j + 1)).sum := by
  induction l with
  | nil => intro j hj; simp at hj
  | cons a r ih =>
    intro j hj
    cases j with
    | zero =>
      rw [show cumsumN (a :: r) = a :: (cumsumN r).map (a + ·) from rfl]
      simp
    | succ k =>
      have hk : k < r.length := by simpa using hj
      have hk2 : k < (cumsumN r).length := by rw [cumsumN_length]; exact hk
      rw [show cumsumN (a :: r) = a :: (cumsumN r).map (a + ·) from rfl]
      rw [List.getD_cons_succ]
      rw [show ((cumsumN r).map (a + ·)).getD k 0 = a + (cumsumN r).getD k 0 from by
        rw [List.getD_eq_getElem?_getD, List.getD_eq_getElem?_getD, List.getElem?_map,
          List.getElem?_eq_getElem hk2]
        rfl]
      rw [ih k hk, List.take_succ_cons, List.sum_cons]

theorem sum_map_boolInd {α : Type} (l : List α) (p : α → Bool) :
    (l.map (fun a => if p a then 1 else 0)).sum = l.countP p := by
  induction l with
  | nil => simp
  | cons a r ih =>
    rw [List.map_cons, List.sum_cons, ih, List.countP_cons]
    by_cases h : p a = true
    · simp [h]
      omega
    · simp [h]

theorem countP_or_disjoint {α : Type} (l : List α) (p q : α → Bool)
    (hdis : ∀ a, ¬(p a = true ∧ q a = true)) :
    l.countP (fun a => p a || q a) = l.countP p + l.countP q := by
  induction l with
  | nil => simp
  | cons a r ih =>
    rw [List.countP_cons, List.countP_cons, List.countP_cons, ih]
    by_cases hp : p a = true
    · have hq : ¬(q a = true) := fun hq => hdis a ⟨hp, hq⟩
      simp [hp, hq]
      omega
    · by_cases hq : q a = true
      · simp [hp, hq]
        omega
      · simp [hp, hq]

theorem countP_eq_range (n s : ℕ) :
    (List.range n).countP (fun i => decide (i = s)) = if s < n then 1 else 0 := by
  induction n with
  | zero => simp
  | succ k ih =>
    rw [List.range_succ, List.countP_append, ih]
    rw [show List.countP (fun i => decide (i = s)) [k] =
        if (k = s) then 1 else 0 from by
      rw [List.countP_cons]
      by_cases h : k = s <;> simp [h]]
    by_cases h : k = s
    · subst h
      rw [if_pos rfl]
      split_ifs <;> omega
    · rw [if_neg h]
      split_ifs <;> omega

theorem countP_range_mem (starts : List ℕ) (hnd : starts.Nodup) (n : ℕ) :
    (List.range n).countP (fun i => decide (i ∈ starts)) =
      starts.countP (fun s => decide (s < n)) := by
  induction starts with
  | nil => simp
  | cons s rest ih =>
    obtain ⟨hnotmem, hndrest⟩ := List.nodup_cons.mp hnd
    have hsplit : (fun i => decide (i ∈ s :: rest)) =
        fun i => (decide (i = s) || decide (i ∈ rest)) := by
      funext i
      simp [List.mem_cons]
    rw [hsplit, countP_or_disjoint _ _ _ (fun a ha => by
      obtain ⟨h1, h2⟩ := ha
      have ha1 : a = s := of_decide_eq_true h1
      have ha2 : a ∈ rest := of_decide_eq_true h2
      exact hnotmem (ha1 ▸ ha2))]
    rw [countP_eq_range, ih hndrest, List.countP_cons]
    by_cases h : s < n
    · simp [h]
      omega
    · simp [h]

theorem mask_pipeline_eq_countP (L : ℕ) (starts : List ℕ) (hnd : starts.Nodup) :
    (cumsumN (((List.range L).map (fun j => decide (j ∈ starts))).map
        (fun b => if b then 1 else 0))).map (fun k => decide (k % 2 = 1)) =
      (List.range L).map
        (fun j => decide ((starts.countP (fun s => decide (s ≤ j))) % 2 = 1)) := by
  apply List.ext_getElem
  · simp [cumsumN_length]
  · intro j h1 h2
    have hjL : j < L := by simpa using h2
    have hval : (cumsumN (((List.range L).map (fun i => decide (i ∈ starts))).map
        (fun b => if b then 1 else 0))).getD j 0 =
        starts.countP (fun s => decide (s ≤ j)) := by
      rw [cumsumN_getD _ j (by simpa using hjL)]
      rw [List.map_map]
      rw [show (((List.range L).map
            ((fun b => if b then (1:ℕ) else 0) ∘ fun i => decide (i ∈ starts))).take (j + 1))
          = (List.range (j + 1)).map
            ((fun b => if b then (1:ℕ) else 0) ∘ fun i => decide (i ∈ starts)) from by
        rw [← List.map_take, List.take_range, Nat.min_eq_left (by omega)]]
      rw [show (List.range (j + 1)).map
            ((fun b => if b then (1:ℕ) else 0) ∘ fun i => decide (i ∈ starts))
          = (List.range (j + 1)).map (fun i => if decide (i ∈ starts) then (1:ℕ) else 0)
          from rfl]
      rw [sum_map_boolInd]
      rw [countP_range_mem starts hnd (j + 1)]
      apply List.countP_congr
      intro a _
      simp only [decide_eq_true_eq]
      omega
    rw [List.getElem_map, List.getElem_map, List.getElem_range]
    rw [← List.getD_eq_getElem (cumsumN (((List.range L).map (fun i => decide (i ∈ starts))).map
        (fun b => if b then 1 else 0))) 0 (by
      rw [cumsumN_length]
      simpa using hjL)]
    rw [hval]

theorem parity_flip (c : ℕ) : decide ((1 + c) % 2 = 1) = !(decide (c % 2 = 1)) := by
  by_cases h : c % 2 = 1
  · have h2 : ¬((1 + c) % 2 = 1) := by omega
    simp [h, h2]
  · have h2 : (1 + c) % 2 = 1 := by omega
    simp [h, h2]

theorem xor_not_right (p x : Bool) : Bool.xor p (!x) = Bool.xor (!p) x := by
  cases p <;> cases x <;> rfl

theorem countP_map_eq_blocks :
    ∀ (segs : List ℕ) (par : Bool),
      (List.range segs.sum).map (fun j => Bool.xor par
          (decide ((((cumsumN segs).dropLast).countP (fun s => decide (s ≤ j))) % 2 = 1)))
        = blocks par segs := by
  intro segs
  induction segs with
  | nil => intro par; simp [blocks, cumsumN]
  | cons a rest ih =>
    intro par
    by_cases hr : rest = []
    · subst hr
      rw [show (cumsumN [a]).dropLast = [] from rfl]
      rw [show ([a] : List ℕ).sum = a from by simp]
      rw [show blocks par [a] = List.replicate a par ++ blocks (!par) [] from rfl]
      rw [show blocks (!par) [] = [] from rfl, List.append_nil]
      calc (List.range a).map (fun j => Bool.xor par
            (decide ((List.countP (fun s => decide (s ≤ j)) []) % 2 = 1)))
          = (List.range a).map (fun _ => par) := by
            apply List.map_congr_left
            intro j _
            rw [List.countP_nil]
            rw [show (decide ((0 : ℕ) % 2 = 1)) = false from by decide]
            cases par <;> rfl
        _ = List.replicate a par := by
            rw [List.map_const']
            simp
    · have hcne : (cumsumN rest).map (a + ·) ≠ [] := by
        intro hcontra
        apply hr
        have hln := congrArg List.length hcontra
        simp [cumsumN_length] at hln
        exact hln
      have hstarts : (cumsumN (a :: rest)).dropLast =
          a :: ((cumsumN rest).dropLast).map (a + ·) := by
        rw [show cumsumN (a :: rest) = a :: (cumsumN rest).map (a + ·) from rfl,
          dropLast_cons_of_ne_nil _ hcne, List.map_dropLast]
      rw [hstarts]
      rw [show (a :: rest).sum = a + rest.sum from by simp]
      rw [List.range_add, List.map_append]
      have hfirst : (List.range a).map (fun j => Bool.xor par
          (decide ((List.countP (fun s => decide (s ≤ j))
            (a :: ((cumsumN rest).dropLast).map (a + ·))) % 2 = 1)))
          = List.replicate a par := by
        calc (List.range a).map (fun j => Bool.xor par
              (decide ((List.countP (fun s => decide (s ≤ j))
                (a :: ((cumsumN rest).dropLast).map (a + ·))) % 2 = 1)))
            = (List.range a).map (fun _ => par) := by
              apply List.map_congr_left
              intro j hj
              have hjA : j < a := List.mem_range.mp hj
              have hzero : List.countP (fun s => decide (s ≤ j))
                  (a :: ((cumsumN rest).dropLast).map (a + ·)) = 0 := by
                apply List.countP_eq_zero.mpr
                intro s hs
                rcases List.mem_cons.mp hs with h0 | hmap
                · subst h0
                  simp only [decide_eq_true_eq]
                  omega
                · obtain ⟨z, hz, hza⟩ := List.mem_map.mp hmap
                  subst hza
                  simp only [decide_eq_true_eq]
                  omega
              rw [hzero]
              rw [show (decide ((0 : ℕ) % 2 = 1)) = false from by decide]
              cases par <;> rfl
          _ = List.replicate a par := by
              rw [List.map_const']
              simp
      have hsecond : ((List.range rest.sum).map (a + ·)).map (fun j => Bool.xor par
          (decide ((List.countP (fun s => decide (s ≤ j))
            (a :: ((cumsumN rest).dropLast).map (a + ·))) % 2 = 1)))
          = blocks (!par) rest := by
        rw [List.map_map]
        calc (List.range rest.sum).map ((fun j => Bool.xor par
              (decide ((List.countP (fun s => decide (s ≤ j))
                (a :: ((cumsumN rest).dropLast).map (a + ·))) % 2 = 1))) ∘ (a + ·))
            = (List.range rest.sum).map (fun j => Bool.xor (!par)
                (decide ((List.countP (fun s => decide (s ≤ j))
                  ((cumsumN rest).dropLast)) % 2 = 1))) := by
              apply List.map_congr_left
              intro j _
              simp only [Function.comp_apply]
              have hpoint : List.countP ((fun s => decide (s ≤ a + j)) ∘ (a + ·))
                  ((cumsumN rest).dropLast)
                  = List.countP (fun z => decide (z ≤ j)) ((cumsumN rest).dropLast) := by
                apply List.countP_congr
                intro z _
                simp only [Function.comp_apply, decide_eq_true_eq]
                omega
              have hcount : List.countP (fun s => decide (s ≤ a + j))
                  (a :: ((cumsumN rest).dropLast).map (a + ·))
                  = 1 + List.countP (fun z => decide (z ≤ j)) ((cumsumN rest).dropLast) := by
                rw [List.countP_cons]
                rw [List.countP_map]
                rw [hpoint]
                rw [show (decide (a ≤ a + j)) = true from decide_eq_true (by omega)]
                simp
                omega
              rw [hcount, parity_flip, xor_not_right]
          _ = blocks (!par) rest := ih (!par)
      rw [hfirst, hsecond]
      rfl

theorem count_true_mask_indices (n : ℕ) (k : ℤ) :
    ((List.range n).map (fun (i : ℕ) => decide ((i : ℤ) < k))).count true = min k.toNat n := by
  induction n with
  | zero => simp
  | succ j ih =>
    rw [List.range_succ, List.map_append, List.count_append, ih]
    simp only [List.map_cons, List.map_nil]
    by_cases h : (j : ℤ) < k
    · rw [show (decide ((j : ℤ) < k)) = true from decide_eq_true h]
      rw [show List.count true [true] = 1 from rfl]
      omega
    · rw [show (decide ((j : ℤ) < k)) = false from decide_eq_false h]
      rw [show List.count true [false] = 0 from rfl]
      omega

theorem randomSegmentation_spec (num_items num_segments : ℤ) (σ : List Bool → List Bool)
    (hσ : ∀ l, List.Perm (σ l) l) :
    (randomSegmentation num_items num_segments σ).length =
        min (num_segments - 1).toNat (num_items - 1).toNat + 1 ∧
      (randomSegmentation num_items num_segments σ).sum = (num_items - 1).toNat + 1 ∧
      ∀ x ∈ randomSegmentation num_items num_segments σ, 0 < x := by
  unfold randomSegmentation
  dsimp only
  have hperm := hσ ((List.range (num_items - 1).toNat).map
    (fun (i : ℕ) => decide ((i : ℤ) < num_segments - 1)))
  have hlen : (σ ((List.range (num_items - 1).toNat).map
      (fun (i : ℕ) => decide ((i : ℤ) < num_segments - 1)))).length = (num_items - 1).toNat := by
    rw [hperm.length_eq]
    simp
  have hcount : (σ ((List.range (num_items - 1).toNat).map
      (fun (i : ℕ) => decide ((i : ℤ) < num_segments - 1)))).count true =
      min (num_segments - 1).toNat (num_items - 1).toNat := by
    rw [hperm.count_eq]
    exact count_true_mask_indices _ _
  obtain ⟨h1, h2, h3⟩ := segmentation_core (σ ((List.range (num_items - 1).toNat).map
    (fun (i : ℕ) => decide ((i : ℤ) < num_segments - 1))))
  refine ⟨?_, ?_, h3⟩
  · rw [h1, hcount]
  · rw [h2, hlen]

theorem blocks_length : ∀ (segs : List ℕ) (par : Bool), (blocks par segs).length = segs.sum := by
  intro segs
  induction segs with
  | nil => intro par; rfl
  | cons a r ih => intro par; simp [blocks, ih]

theorem stackInterleave_sum :
    ∀ (nns ns : List ℕ), nns.length = ns.length →
      (stackInterleave nns ns).sum = nns.sum + ns.sum := by
  intro nns
  induction nns with
  | nil =>
    intro ns h
    rw [show ns = [] from (List.length_eq_zero.mp h.symm)]
    rfl
  | cons a as ih =>
    intro ns h
    cases ns with
    | nil => simp at h
    | cons b bs =>
      rw [show stackInterleave (a :: as) (b :: bs) = a :: b :: stackInterleave as bs from rfl]
      simp only [List.sum_cons]
      rw [ih bs (by simpa using h)]
      omega

theorem stackInterleave_pos :
    ∀ (nns ns : List ℕ), (∀ x ∈ nns, 0 < x) → (∀ x ∈ ns, 0 < x) →
      ∀ x ∈ stackInterleave nns ns, 0 < x := by
  intro nns
  induction nns with
  | nil =>
    intro ns _ _ x hx
    cases ns <;> simp [stackInterleave] at hx
  | cons a as ih =>
    intro ns h1 h2 x hx
    cases ns with
    | nil => simp [stackInterleave] at hx
    | cons b bs =>
      rw [show stackInterleave (a :: as) (b :: bs) = a :: b :: stackInterleave as bs from rfl]
        at hx
      rcases List.mem_cons.mp hx with h0 | hx2
      · exact h0 ▸ h1 a (by simp)
      · rcases List.mem_cons.mp hx2 with h0 | hx3
        · exact h0 ▸ h2 b (by simp)
        · exact ih bs (fun y hy => h1 y (by simp [hy])) (fun y hy => h2 y (by simp [hy])) x hx3

theorem blocks_interleave_count :
    ∀ (nns ns : List ℕ), nns.length = ns.length →
      (blocks false (stackInterleave nns ns)).count true = ns.sum := by
  intro nns
  induction nns with
  | nil =>
    intro ns h
    rw [show ns = [] from (List.length_eq_zero.mp h.symm)]
    rfl
  | cons a as ih =>
    intro ns h
    cases ns with
    | nil => simp at h
    | cons b bs =>
      rw [show stackInterleave (a :: as) (b :: bs) = a :: b :: stackInterleave as bs from rfl]
      rw [show blocks false (a :: b :: stackInterleave as bs) =
          List.replicate a false ++ (List.replicate b true ++
            blocks false (stackInterleave as bs)) from by simp [blocks]]
      rw [List.count_append, List.count_append]
      rw [List.count_replicate, List.count_replicate]
      rw [ih bs (by simpa using h)]
      simp

theorem runsAux_replicate_false :
    ∀ (a : ℕ), 0 < a → ∀ (l : List Bool) (prev : Bool),
      runsAux prev (List.replicate a false ++ l) = runsAux false l := by
  intro a
  induction a with
  | zero => intro h; simp at h
  | succ k ih =>
    intro _ l prev
    rw [show List.replicate (k + 1) false = false :: List.replicate k false from rfl,
      List.cons_append]
    rw [show runsAux prev (false :: (List.replicate k false ++ l)) =
        runsAux false (List.replicate k false ++ l) from by cases prev <;> rfl]
    by_cases hk : k = 0
    · subst hk
      rw [show List.replicate 0 false = ([] : List Bool) from rfl, List.nil_append]
    · exact ih (by omega) l false

theorem runsAux_replicate_true_true :
    ∀ (b : ℕ) (l : List Bool), runsAux true (List.replicate b true ++ l) = runsAux true l := by
  intro b
  induction b with
  | zero => intro l; simp
  | succ k ih =>
    intro l
    rw [show List.replicate (k + 1) true = true :: List.replicate k true from rfl,
      List.cons_append]
    rw [show runsAux true (true :: (List.replicate k true ++ l)) =
        runsAux true (List.replicate k true ++ l) from rfl]
    exact ih l

theorem runsAux_replicate_true_false (b : ℕ) (hb : 0 < b) (l : List Bool) :
    runsAux false (List.replicate b true ++ l) = 1 + runsAux true l := by
  cases b with
  | zero => simp at hb
  | succ k =>
    rw [show List.replicate (k + 1) true = true :: List.replicate k true from rfl,
      List.cons_append]
    rw [show runsAux false (true :: (List.replicate k true ++ l)) =
        1 + runsAux true (List.replicate k true ++ l) from rfl]
    rw [runsAux_replicate_true_true]

theorem blocks_interleave_runs :
    ∀ (nns ns : List ℕ), nns.length = ns.length →
      (∀ x ∈ nns, 0 < x) → (∀ x ∈ ns, 0 < x) →
      ∀ prev, runsAux prev (blocks false (stackInterleave nns ns)) = ns.length := by
  intro nns
  induction nns with
  | nil =>
    intro ns h _ _ prev
    rw [show ns = [] from (List.length_eq_zero.mp h.symm)]
    cases prev <;> rfl
  | cons a as ih =>
    intro ns h hnns hns prev
    cases ns with
    | nil => simp at h
    | cons b bs =>
      rw [show stackInterleave (a :: as) (b :: bs) = a :: b :: stackInterleave as bs from rfl]
      rw [show blocks false (a :: b :: stackInterleave as bs) =
          List.replicate a false ++ (List.replicate b true ++
            blocks false (stackInterleave as bs)) from by simp [blocks]]
      rw [runsAux_replicate_false a (hnns a (by simp)) _ prev]
      rw [runsAux_replicate_true_false b (hns b (by simp)) _]
      rw [ih bs (by simpa using h) (fun x hx => hnns x (by simp [hx]))
        (fun x hx => hns x (by simp [hx])) true]
      simp only [List.length_cons]
      omega

theorem roundHalfEven_le (q : ℚ) : ((roundHalfEven q : ℤ) : ℚ) ≤ q + 1/2 := by
  have hfl : Rat.floor q = ⌊q⌋ := by rw [Rat.floor_def, Rat.floor_def']
  unfold roundHalfEven
  rw [hfl]
  have h1 : (⌊q⌋ : ℚ) ≤ q := Int.floor_le q
  have h2 : q < ⌊q⌋ + 1 := Int.lt_floor_add_one q
  by_cases hlt : q - ⌊q⌋ < 1/2
  · simp only [hlt, reduceIte]
    linarith
  · simp only [hlt, reduceIte]
    by_cases hgt2 : 1/2 < q - ⌊q⌋
    · simp only [hgt2, reduceIte]
      push_cast
      linarith
    · simp only [hgt2, reduceIte]
      by_cases hev : ⌊q⌋ % 2 = 0 <;> simp only [hev, reduceIte] <;> push_cast <;> linarith

theorem eq_singleton_of_length_sum (l : List ℕ) (hlen : l.length = 1) (hsum : l.sum = 1) :
    l = [1] := by
  cases l with
  | nil => simp at hlen
  | cons x xs =>
    cases xs with
    | nil =>
      simp only [List.sum_cons, List.sum_nil, add_zero] at hsum
      rw [hsum]
    | cons y ys => simp at hlen

/-- C1: for every length L ≥ 1, density d in (0,1) and mean span length
m ≥ 1, every noise mask actually returned by random_spans_noise_mask (the
two random shuffles being injected as permutation functions) has between 1
and L - 1 true positions, and its true positions form exactly
max(1, round(count(true) / m)) maximal contiguous runs. At L = 1 (and in
the degenerate configurations where the two segmentations disagree in
length) the source raises and no mask is returned. -/
theorem C1_noise_mask_count_and_runs (L : ℕ) (d m : ℚ)
    (σ₁ σ₂ : List Bool → List Bool) (mask : List Bool)
    (hL : 1 ≤ L) (hd0 : 0 < d) (hd1 : d < 1) (hm : 1 ≤ m)
    (hσ₁ : ∀ l, List.Perm (σ₁ l) l) (hσ₂ : ∀ l, List.Perm (σ₂ l) l)
    (hres : random_spans_noise_mask L d m σ₁ σ₂ = some mask) :
    (1 ≤ mask.count true ∧ (mask.count true : ℤ) ≤ (L : ℤ) - 1) ∧
      (countTrueRuns mask : ℤ) = max (roundHalfEven ((mask.count true : ℚ) / m)) 1 := by
  unfold random_spans_noise_mask at hres
  dsimp only at hres
  obtain ⟨hp1len, hp1sum, hp1pos⟩ :=
    randomSegmentation_spec (numNoiseTokens L d) (numNoiseSpans L d m) σ₁ hσ₁
  obtain ⟨hp2len, hp2sum, hp2pos⟩ :=
    randomSegmentation_spec ((L : ℤ) - numNoiseTokens L d) (numNoiseSpans L d m) σ₂ hσ₂
  set nt := numNoiseTokens L d with hntdef
  set ns := numNoiseSpans L d m with hnsdef
  set parts1 := randomSegmentation nt ns σ₁ with hp1def
  set parts2 := randomSegmentation ((L : ℤ) - nt) ns σ₂ with hp2def
  set interleaved := stackInterleave parts2 parts1 with hintdef
  set starts := (cumsumN interleaved).dropLast with hstdef
  split_ifs at hres with hg1 hg2
  injection hres with hres
  rcases L with _ | L1
  · exact absurd hL (by omega)
  rcases L1 with _ | n
  · -- L = 1: the span start check fails, contradiction
    have hnt0 : nt = 0 := by
      rw [hntdef]
      unfold numNoiseTokens
      omega
    have hl1 : parts1.length = 1 := by
      rw [hp1len, hnt0]
      omega
    have hs1 : parts1.sum = 1 := by
      rw [hp1sum, hnt0]
      omega
    have hl2 : parts2.length = 1 := by
      rw [hp2len, hnt0]
      omega
    have hs2 : parts2.sum = 1 := by
      rw [hp2sum, hnt0]
      omega
    have hparts1 : parts1 = [1] := eq_singleton_of_length_sum _ hl1 hs1
    have hparts2 : parts2 = [1] := eq_singleton_of_length_sum _ hl2 hs2
    rw [hstdef, hintdef, hparts1, hparts2] at hg2
    simp [cumsumN] at hg2
  · -- L = n + 2
    have hnt1 : 1 ≤ nt ∧ nt ≤ ((n + 2 : ℕ) : ℤ) - 1 := by
      rw [hntdef]
      unfold numNoiseTokens
      constructor <;> omega
    have hns1 : 1 ≤ ns := by
      rw [hnsdef]
      unfold numNoiseSpans
      omega
    have hnsnt : ns ≤ nt := by
      have hqnn : (0 : ℚ) ≤ (nt : ℚ) := by
        have : (0 : ℤ) ≤ nt := by omega
        exact_mod_cast this
      have hdiv : (nt : ℚ) / m ≤ (nt : ℚ) := div_le_self hqnn hm
      have hle := roundHalfEven_le ((nt : ℚ) / m)
      have hlt : ((roundHalfEven ((nt : ℚ) / m) : ℤ) : ℚ) < ((nt : ℤ) : ℚ) + 1 := by
        linarith
      have hint : roundHalfEven ((nt : ℚ) / m) < nt + 1 := by exact_mod_cast hlt
      have hmax : max (roundHalfEven ((nt : ℚ) / m)) 1 = ns := by
        rw [hnsdef]
        unfold numNoiseSpans
        rw [← hntdef]
      rw [← hmax]
      have h1nt : (1 : ℤ) ≤ nt := hnt1.1
      omega
    have hp1len2 : parts1.length = ns.toNat := by
      rw [hp1len]
      omega
    have hp1sum2 : parts1.sum = nt.toNat := by
      rw [hp1sum]
      omega
    have hp2sum2 : parts2.sum = (((n + 2 : ℕ) : ℤ) - nt).toNat := by
      rw [hp2sum]
      omega
    have hsumL : interleaved.sum = n + 2 := by
      rw [hintdef, stackInterleave_sum parts2 parts1 hg1, hp2sum2, hp1sum2]
      omega
    have hpos : ∀ x ∈ interleaved, 0 < x := by
      rw [hintdef]
      exact stackInterleave_pos parts2 parts1 hp2pos hp1pos
    have hnd : starts.Nodup := by
      rw [hstdef]
      exact List.Nodup.sublist (List.dropLast_sublist _) (cumsumN_nodup interleaved hpos)
    have hpipe := mask_pipeline_eq_countP (n + 2) starts hnd
    have hb2 : (List.range (n + 2)).map
        (fun j => decide ((starts.countP (fun s => decide (s ≤ j))) % 2 = 1)) =
        blocks false interleaved := by
      rw [hstdef, ← countP_map_eq_blocks interleaved false, hsumL]
      apply List.map_congr_left
      intro j _
      cases hdec : decide ((((cumsumN interleaved).dropLast).countP
          (fun s => decide (s ≤ j))) % 2 = 1) <;> rfl
    have hmask : mask = blocks false interleaved := by
      rw [← hres, hpipe, hb2]
      exact List.take_of_length_le (le_of_eq (by rw [blocks_length, hsumL]))
    have hcnt : mask.count true = nt.toNat := by
      rw [hmask, hintdef, blocks_interleave_count parts2 parts1 hg1, hp1sum2]
    have hruns : countTrueRuns mask = ns.toNat := by
      rw [hmask, hintdef]
      unfold countTrueRuns
      rw [blocks_interleave_runs parts2 parts1 hg1 hp2pos hp1pos false, hp1len2]
    refine ⟨⟨?_, ?_⟩, ?_⟩
    · rw [hcnt]
      omega
    · rw [hcnt]
      have h1nt : (1 : ℤ) ≤ nt := hnt1.1
      have h2nt := hnt1.2
      omega
    · rw [hruns, hcnt]
      have hcast : ((nt.toNat : ℕ) : ℚ) = ((nt : ℤ) : ℚ) := by
        have h1 : ((nt.toNat : ℕ) : ℤ) = nt := Int.toNat_of_nonneg (by omega)
        calc ((nt.toNat : ℕ) : ℚ) = (((nt.toNat : ℕ) : ℤ) : ℚ) := by norm_cast
          _ = ((nt : ℤ) : ℚ) := by rw [h1]
      rw [hcast]
      have hmax : max (roundHalfEven ((nt : ℚ) / m)) 1 = ns := by
        rw [hnsdef]
        unfold numNoiseSpans
        rw [← hntdef]
      rw [hmax]
      omega

/-- Witness for C1: at L = 10, d = 0.15, m = 3 with identity shuffles the
generator returns the mask with eight false positions followed by two true
positions; its 2 true positions lie in 1 and 9 and form 1 run. -/
theorem C1_witness :
    (1 ≤ ([false, false, false, false, false, false, false, false, true, true] : List Bool).count
        true ∧
      ((([false, false, false, false, false, false, false, false, true, true] : List Bool).count
        true : ℕ) : ℤ) ≤ (10 : ℤ) - 1) ∧
      ((countTrueRuns
          ([false, false, false, false, false, false, false, false, true, true] : List Bool) : ℕ)
        : ℤ) =
        max (roundHalfEven
          (((([false, false, false, false, false, false, false, false, true, true] :
            List Bool).count true : ℕ) : ℚ) / 3)) 1 :=
  C1_noise_mask_count_and_runs 10 (3/20) 3 id id
    [false, false, false, false, false, false, false, false, true, true]
    (by decide) (by decide) (by decide) (by decide)
    (fun l => List.Perm.refl l) (fun l => List.Perm.refl l) (by decide)

end Generator

section Builder

/-- The dictionary returned by build_training_sample: the packed
input-then-output token stream and the length of its input part. -/
structure TrainingSample where
  text : List ℤ
  prefix_len : ℕ

/-- build_training_sample: flatten the sample's sentences, draw the span
noise mask at the fixed constants noise_density = 0.15 and
mean_noise_span_length = 3, derive both sentinel streams, filter the
input and output token streams and concatenate them. The two shuffles of
the mask generator are injected; a raised error anywhere (inside the mask
generator, or the np.where shape mismatch when the flattened tokens do
not match the mask length) is none. -/
def build_training_sample (sample : List (List ℤ)) (expanded_inputs_length : ℕ)
    (vocab_len eos_id : ℤ) (σ₁ σ₂ : List Bool → List Bool) : Option TrainingSample :=
  let tokens := sample.flatten
  match random_spans_noise_mask expanded_inputs_length (3/20) 3 σ₁ σ₂ with
  | none => none
  | some mask_indices =>
    let labels_mask := mask_indices.map (fun b => !b)
    let input_ids_sentinel := create_sentinel_ids (mask_indices.map boolToInt) vocab_len
    let labels_sentinel := create_sentinel_ids (labels_mask.map boolToInt) vocab_len
    if tokens.length = mask_indices.length then
      let input_tokens_ids := filter_input_ids tokens input_ids_sentinel eos_id
      let output_tokens_ids := filter_input_ids tokens labels_sentinel eos_id
      some { text := input_tokens_ids ++ output_tokens_ids,
             prefix_len := input_tokens_ids.length }
    else none

/-- NonCausalMLMDataset.__init__ followed by __getitem__ idx: plan the
expanded input length from max_seq_length and masked_lm_prob (with
max_ngrams = 3), build the samples mapping over the documents at that
window, slice the documents according to the idx-th entry and build the
training sample. masked_lm_prob enters only the planner. -/
def datasetGetItem (masked_lm_prob : ℚ) (max_seq_length : ℤ) (fuel : ℕ)
    (docs : List (List ℤ)) (idx : ℕ) (vocab_len eos_id : ℤ)
    (σ₁ σ₂ : List Bool → List Bool) : Option TrainingSample :=
  match compute_input_and_target_lengths max_seq_length masked_lm_prob 3 fuel with
  | none => none
  | some (expanded_inputs_length, _) =>
    match get_samples_mapping
        ((List.range docs.length).map (fun (i : ℕ) => ((i : ℤ), (docs.getD i []).length)))
        expanded_inputs_length.toNat with
    | none => none
    | some samples_mapping =>
      match samples_mapping[idx]? with
      | none => none
      | some indices =>
        let sample := indices.map
          (fun di => ((docs.getD di.1.toNat []).drop di.2.1).take (di.2.2 - di.2.1))
        build_training_sample sample expanded_inputs_length.toNat vocab_len eos_id σ₁ σ₂

/-- C10: build_training_sample draws the noise mask at the fixed constants
density 0.15 and mean span length 3, so masked_lm_prob influences an item
only through the planned expanded input length: two datasets differing
only in masked_lm_prob whose planners agree on the expanded input length
return identical items (the planned target lengths may differ freely, as
__getitem__ never reads them). -/
theorem C10_masking_independent_of_masked_lm_prob
    (p₁ p₂ : ℚ) (max_seq_length : ℤ) (fuel : ℕ) (docs : List (List ℤ)) (idx : ℕ)
    (vocab_len eos_id : ℤ) (σ₁ σ₂ : List Bool → List Bool) (T t₁ t₂ : ℤ)
    (h₁ : compute_input_and_target_lengths max_seq_length p₁ 3 fuel = some (T, t₁))
    (h₂ : compute_input_and_target_lengths max_seq_length p₂ 3 fuel = some (T, t₂)) :
    datasetGetItem p₁ max_seq_length fuel docs idx vocab_len eos_id σ₁ σ₂ =
      datasetGetItem p₂ max_seq_length fuel docs idx vocab_len eos_id σ₁ σ₂ := by
  unfold datasetGetItem
  rw [h₁, h₂]

/-- Witness for C10: densities 0.15 and 0.10 both plan expanded input
length 8 for max_seq_length 8, so the items coincide. -/
theorem C10_witness :
    datasetGetItem (3/20) 8 20 [[1, 2, 3, 4, 5], [6, 7, 8, 9, 10]] 0 100 0 id id =
      datasetGetItem (1/10) 8 20 [[1, 2, 3, 4, 5], [6, 7, 8, 9, 10]] 0 100 0 id id :=
  C10_masking_independent_of_masked_lm_prob (3/20) (1/10) 8 20
    [[1, 2, 3, 4, 5], [6, 7, 8, 9, 10]] 0 100 0 id id 8 2 2 (by decide) (by decide)

end Builder

end NCMLM
